import Mathlib

/-!
Verification of the torchQC distance metrics (`segmentation/metrics/distance_metrics.py`)
and the 1-D motion simulation script (`script/test_motion_1D.py`).

Volumes are modelled as rational-valued functions on `ℤ × ℤ × ℤ`; a 3-D array of
shape `a × b × c` occupies the index box `[0,a) × [0,b) × [0,c)` and every lookup outside
that box is zero (this is exactly the zero padding used by `torch.cat` with a zero
slab and by `torch.conv3d` with `padding=radius`).  Boolean masks obtained by
thresholding are `false` outside the box by construction.
-/

open Finset

/-- Integer voxel coordinates of a 3-D volume. -/
abbrev Vox : Type := ℤ × ℤ × ℤ

/-- The index box of an array of shape `a × b × c`. -/
def vbox (a b c : ℕ) : Finset Vox :=
  Finset.Icc 0 ((a : ℤ) - 1) ×ˢ Finset.Icc 0 ((b : ℤ) - 1) ×ˢ Finset.Icc 0 ((c : ℤ) - 1)

/-- `volume > cut` on the array: the thresholded boolean mask, `false` outside the index box
(zero padding). Source: `ref = (volume > cut).float()`. -/
def thresh (a b c : ℕ) (cut : ℚ) (vol : Vox → ℚ) : Vox → Bool :=
  fun v => decide (v ∈ vbox a b c) && decide (cut < vol v)

def ex : Vox := (1, 0, 0)
def ey : Vox := (0, 1, 0)
def ez : Vox := (0, 0, 1)

/-- Boundary detection of `_get_border` on an already-thresholded mask `m` (the mask is
`false` outside the array, which models the zero slab concatenated at each face):
a voxel is marked iff it is foreground and, along some axis, the one-step
forward- or backward-shifted mask is background there
(`border[(ref - concat) == 1] = 1` for the six axis/direction combinations). -/
def border_mask (m : Vox → Bool) : Vox → Bool :=
  fun t => m t &&
    (!m (t + ex) || !m (t - ex) || !m (t + ey) || !m (t - ey) || !m (t + ez) || !m (t - ez))

/-- Source `_get_border(volume, cut)`: threshold, then mark foreground voxels adjacent
to a background (or out-of-array) voxel along some axis. -/
def get_border (a b c : ℕ) (cut : ℚ) (vol : Vox → ℚ) : Vox → Bool :=
  border_mask (thresh a b c cut vol)

/-- Squared Euclidean norm of a voxel offset. -/
def sqNorm (v : Vox) : ℤ := v.1 ^ 2 + v.2.1 ^ 2 + v.2.2 ^ 2

/-- The cubic neighborhood of offsets `[-r, r]³` enumerated by the distance-map meshgrid. -/
def offsets (r : ℕ) : Finset Vox :=
  Finset.Icc (-(r : ℤ)) r ×ˢ Finset.Icc (-(r : ℤ)) r ×ˢ Finset.Icc (-(r : ℤ)) r

/-- Squared distance clipped at `radius²`.  The source map stores
`min(sqrt(i²+j²+k²), radius)`; since `Real.sqrt` is monotone this equals
`Real.sqrt (cappedSq r v)`, and all integer bookkeeping happens on `cappedSq`. -/
def cappedSq (r : ℕ) (v : Vox) : ℤ := min (sqNorm v) ((r : ℤ) ^ 2)

/-- Source `_get_distance_map`: Euclidean distance of each offset from the center,
entries larger than `radius` clipped to `radius`. -/
noncomputable def distance_map (r : ℕ) (v : Vox) : ℝ := Real.sqrt ((cappedSq r v : ℤ) : ℝ)

/-- Source `self.distances = self.distance_map.unique()`: the ascending list of distinct
distance values, represented through their squared values (the squaring is a strictly
monotone bijection between the two lists). -/
def distVals (r : ℕ) : List ℤ := ((offsets r).image (cappedSq r)).sort (· ≤ ·)

section BorderFacts

lemma thresh_mem_box {a b c : ℕ} {cut : ℚ} {vol : Vox → ℚ} {v : Vox}
    (h : thresh a b c cut vol v = true) : v ∈ vbox a b c := by
  simp only [thresh, Bool.and_eq_true, decide_eq_true_eq] at h
  exact h.1

lemma border_mask_subset {m : Vox → Bool} {t : Vox}
    (h : border_mask m t = true) : m t = true := by
  simp only [border_mask, Bool.and_eq_true] at h
  exact h.1

end BorderFacts

/-! ### The convolution pipeline of `_pairwise_distances` -/

/-- Convolution of the target mask `y` with the binary kernel of squared distance `s`
(`torch.conv3d(y, kernels, padding=radius)`), evaluated at voxel `p`: the number of
target voxels whose offset from `p` lies in the cubic neighborhood and has clipped
squared distance `s`.  `y` is `false` outside the array, which models the zero padding. -/
def convCount (r : ℕ) (y : Vox → Bool) (p : Vox) (s : ℤ) : ℕ :=
  ((offsets r).filter (fun u => y (p + u) && decide (cappedSq r u = s))).card

/-- One entry of the row of `all_distances` belonging to source voxel `p`: the channel
of distance `sqrt s` holds that distance when the convolution count is nonzero and the
default `d_max = radius` otherwise (`all_distances[all_distances == 0] = d_max` then
`all_distances[indices] = distances[indices[1]]`). -/
noncomputable def channelEntry (r : ℕ) (y : Vox → Bool) (p : Vox) (s : ℤ) : ℝ :=
  if convCount r y p s ≠ 0 then Real.sqrt ((s : ℤ) : ℝ) else (r : ℝ)

/-- Row minimum `min(dim=1)` of `_pairwise_distances` for source voxel `p`: the minimum
over all distance channels.  The fold starts from `radius`, which leaves the minimum
unchanged: the channel of the largest distance always contributes either `radius`
itself (its convolution hit a clipped-distance voxel) or the default `radius`. -/
noncomputable def minDistP (r : ℕ) (y : Vox → Bool) (p : Vox) : ℝ :=
  ((distVals r).map (channelEntry r y p)).foldr min (r : ℝ)

/-- The clipped squared distance from `p` to the nearest `y`-voxel inside the cubic
neighborhood, `radius²` when the neighborhood holds no `y`-voxel. -/
def minCapSq (r : ℕ) (y : Vox → Bool) (p : Vox) : ℤ :=
  (((offsets r).filter (fun u => y (p + u) = true)).fold min ((r : ℤ) ^ 2) (cappedSq r))

/-- `mask.sum()` of a boolean tensor: the number of `true` voxels of the array. -/
def maskSum (a b c : ℕ) (m : Vox → Bool) : ℕ :=
  ((vbox a b c).filter (fun v => m v = true)).card

/-- One directional term of `average_hausdorff_distance`: when the source set is
non-empty, the sum over its voxels of the row minima of `_pairwise_distances`
against `tgt`, divided by `denom` (which the source sets to the *total* foreground
count of the corresponding volume); `0` otherwise. -/
noncomputable def directional_term (r a b c : ℕ) (src tgt : Vox → Bool) (denom : ℕ) : ℝ :=
  if maskSum a b c src ≠ 0 then
    (∑ v ∈ (vbox a b c).filter (fun v => src v = true), minDistP r tgt v) / (denom : ℝ)
  else 0

/-- Source `DistanceMetric.average_hausdorff_distance`: threshold both volumes, then sum
the two directional terms, sources being `prediction` minus the overlap against
`boundary(target)` (divided by `prediction.sum()`) and `target` minus the overlap
against `boundary(prediction)` (divided by `target.sum()`). -/
noncomputable def average_hausdorff_distance
    (r : ℕ) (cut : ℚ) (a b c : ℕ) (P T : Vox → ℚ) : ℝ :=
  directional_term r a b c (fun v => thresh a b c cut P v && !thresh a b c cut T v)
      (border_mask (thresh a b c cut T)) (maskSum a b c (thresh a b c cut P))
    + directional_term r a b c (fun v => thresh a b c cut T v && !thresh a b c cut P v)
      (border_mask (thresh a b c cut P)) (maskSum a b c (thresh a b c cut T))

/-- Modelled from the spec sentence behind claim C1 ("average the nearest distance from
every prediction_only voxel ... divided by the number of prediction_only voxels"):
the same two directional terms but each divided by the size of its *source* set.
This definition exists only to be compared against `average_hausdorff_distance`. -/
noncomputable def claimed_average_hausdorff_distance
    (r : ℕ) (cut : ℚ) (a b c : ℕ) (P T : Vox → ℚ) : ℝ :=
  directional_term r a b c (fun v => thresh a b c cut P v && !thresh a b c cut T v)
      (border_mask (thresh a b c cut T))
      (maskSum a b c (fun v => thresh a b c cut P v && !thresh a b c cut T v))
    + directional_term r a b c (fun v => thresh a b c cut T v && !thresh a b c cut P v)
      (border_mask (thresh a b c cut P))
      (maskSum a b c (fun v => thresh a b c cut T v && !thresh a b c cut P v))

/-! ### The row minimum computes the clipped nearest distance -/

section FoldrMin

variable {α : Type*} [LinearOrder α]

lemma foldr_min_le_init (l : List α) (d : α) : l.foldr min d ≤ d := by
  induction l with
  | nil => exact le_rfl
  | cons x xs ih => exact le_trans (min_le_right _ _) ih

lemma foldr_min_le_mem {l : List α} {x : α} (h : x ∈ l) (d : α) : l.foldr min d ≤ x := by
  induction l with
  | nil => cases h
  | cons y ys ih =>
      rcases List.mem_cons.mp h with rfl | hx
      · exact min_le_left _ _
      · exact le_trans (min_le_right _ _) (ih hx)

lemma le_foldr_min {l : List α} {d a : α} (hd : a ≤ d) (h : ∀ x ∈ l, a ≤ x) :
    a ≤ l.foldr min d := by
  induction l with
  | nil => exact hd
  | cons y ys ih =>
      exact le_min (h y (List.mem_cons_self y ys)) (ih fun x hx => h x (List.mem_cons_of_mem _ hx))

end FoldrMin

lemma mem_distVals {r : ℕ} {s : ℤ} :
    s ∈ distVals r ↔ ∃ u ∈ offsets r, cappedSq r u = s := by
  simp only [distVals, Finset.mem_sort, Finset.mem_image]

lemma cappedSq_nonneg (r : ℕ) (u : Vox) : 0 ≤ cappedSq r u := by
  have h1 : 0 ≤ sqNorm u := by
    have := sq_nonneg u.1
    have := sq_nonneg u.2.1
    have := sq_nonneg u.2.2
    unfold sqNorm; omega
  have h2 : 0 ≤ ((r : ℤ)) ^ 2 := sq_nonneg _
  exact le_min h1 h2

lemma cappedSq_le_sq (r : ℕ) (u : Vox) : cappedSq r u ≤ ((r : ℤ)) ^ 2 := min_le_right _ _

lemma minCapSq_nonneg (r : ℕ) (y : Vox → Bool) (p : Vox) : 0 ≤ minCapSq r y p := by
  unfold minCapSq
  rw [Finset.le_fold_min]
  exact ⟨sq_nonneg _, fun u _ => cappedSq_nonneg r u⟩

lemma minCapSq_le_sq (r : ℕ) (y : Vox → Bool) (p : Vox) : minCapSq r y p ≤ ((r : ℤ)) ^ 2 := by
  unfold minCapSq
  rw [Finset.fold_min_le]
  exact Or.inl le_rfl

lemma sqrt_sq_nat (r : ℕ) : Real.sqrt ((((r : ℤ)) ^ 2 : ℤ) : ℝ) = (r : ℝ) := by
  push_cast
  exact Real.sqrt_sq (by positivity)

/-- The row minimum of the multi-kernel convolution pipeline equals the square root of
the clipped squared distance to the nearest target voxel in the neighborhood. -/
lemma minDistP_eq_sqrt_minCapSq (r : ℕ) (y : Vox → Bool) (p : Vox) :
    minDistP r y p = Real.sqrt ((minCapSq r y p : ℤ) : ℝ) := by
  set S : Finset Vox := (offsets r).filter (fun u => y (p + u) = true) with hS
  have hconv : ∀ s : ℤ, convCount r y p s ≠ 0 ↔ ∃ u ∈ S, cappedSq r u = s := by
    intro s
    unfold convCount
    rw [Ne, Finset.card_eq_zero, ← Ne, ← Finset.nonempty_iff_ne_empty]
    constructor
    · rintro ⟨u, hu⟩
      simp only [Finset.mem_filter, Bool.and_eq_true, decide_eq_true_eq] at hu
      exact ⟨u, Finset.mem_filter.mpr ⟨hu.1, hu.2.1⟩, hu.2.2⟩
    · rintro ⟨u, hu, hc⟩
      rw [hS, Finset.mem_filter] at hu
      refine ⟨u, Finset.mem_filter.mpr ⟨hu.1, ?_⟩⟩
      simp only [Bool.and_eq_true, decide_eq_true_eq]
      exact ⟨hu.2, hc⟩
  have hm_nonneg := minCapSq_nonneg r y p
  have hm_le := minCapSq_le_sq r y p
  have hlower : ∀ s ∈ distVals r, Real.sqrt ((minCapSq r y p : ℤ) : ℝ) ≤ channelEntry r y p s := by
    intro s hs
    unfold channelEntry
    by_cases hc : convCount r y p s ≠ 0
    · rw [if_pos hc]
      rcases (hconv s).mp hc with ⟨u, hu, hcu⟩
      have : minCapSq r y p ≤ s := by
        rw [← hcu]
        unfold minCapSq
        rw [Finset.fold_min_le]
        exact Or.inr ⟨u, hu, le_rfl⟩
      exact Real.sqrt_le_sqrt (by exact_mod_cast this)
    · rw [if_neg hc]
      calc Real.sqrt ((minCapSq r y p : ℤ) : ℝ)
          ≤ Real.sqrt ((((r : ℤ)) ^ 2 : ℤ) : ℝ) := Real.sqrt_le_sqrt (by exact_mod_cast hm_le)
        _ = (r : ℝ) := sqrt_sq_nat r
  have hle_init : Real.sqrt ((minCapSq r y p : ℤ) : ℝ) ≤ (r : ℝ) := by
    calc Real.sqrt ((minCapSq r y p : ℤ) : ℝ)
        ≤ Real.sqrt ((((r : ℤ)) ^ 2 : ℤ) : ℝ) := Real.sqrt_le_sqrt (by exact_mod_cast hm_le)
      _ = (r : ℝ) := sqrt_sq_nat r
  refine le_antisymm ?_ ?_
  · -- the minimum is attained: either some channel hits `minCapSq`, or no channel hits
    -- at all and every entry (and the fold base) is `radius = sqrt (radius²)`.
    have hfold := minCapSq_le_sq r y p
    have hattain : minCapSq r y p = ((r : ℤ)) ^ 2 ∨ ∃ u ∈ S, cappedSq r u = minCapSq r y p := by
      have h1 : minCapSq r y p ≤ minCapSq r y p := le_rfl
      unfold minCapSq at h1
      rw [Finset.fold_min_le] at h1
      rcases h1 with h | ⟨u, hu, hle⟩
      · left
        exact le_antisymm (minCapSq_le_sq r y p) h
      · right
        refine ⟨u, hu, le_antisymm ?_ ?_⟩
        · exact hle
        · unfold minCapSq
          rw [Finset.fold_min_le]
          exact Or.inr ⟨u, hu, le_rfl⟩
    rcases hattain with heq | ⟨u, hu, hcu⟩
    · rw [heq, sqrt_sq_nat r]
      exact foldr_min_le_init _ _
    · have hmem : minCapSq r y p ∈ distVals r := by
        rw [mem_distVals]
        exact ⟨u, (Finset.mem_filter.mp (hS ▸ hu)).1, hcu⟩
      have hcnz : convCount r y p (minCapSq r y p) ≠ 0 := (hconv _).mpr ⟨u, hu, hcu⟩
      have hentry : channelEntry r y p (minCapSq r y p)
          = Real.sqrt ((minCapSq r y p : ℤ) : ℝ) := by
        unfold channelEntry
        rw [if_pos hcnz]
      calc minDistP r y p ≤ channelEntry r y p (minCapSq r y p) :=
            foldr_min_le_mem (List.mem_map_of_mem _ hmem) _
        _ = _ := hentry
  · exact le_foldr_min hle_init (by
      intro x hx
      rcases List.mem_map.mp hx with ⟨s, hs, rfl⟩
      exact hlower s hs)

/-! ### Border facts -/

lemma mem_vbox {a b c : ℕ} {v : Vox} :
    v ∈ vbox a b c ↔ 0 ≤ v.1 ∧ v.1 ≤ (a : ℤ) - 1 ∧ 0 ≤ v.2.1 ∧ v.2.1 ≤ (b : ℤ) - 1
      ∧ 0 ≤ v.2.2 ∧ v.2.2 ≤ (c : ℤ) - 1 := by
  unfold vbox
  simp only [Finset.mem_product, Finset.mem_Icc]
  tauto

/-- A voxel on one of the six faces of the array (some coordinate at its extreme). -/
def isFace (a b c : ℕ) (t : Vox) : Bool :=
  decide (t ∈ vbox a b c) &&
    (decide (t.1 = 0) || decide (t.1 = (a : ℤ) - 1) ||
     decide (t.2.1 = 0) || decide (t.2.1 = (b : ℤ) - 1) ||
     decide (t.2.2 = 0) || decide (t.2.2 = (c : ℤ) - 1))

lemma thresh_of_all_le {a b c : ℕ} {cut : ℚ} {vol : Vox → ℚ}
    (h0 : ∀ v ∈ vbox a b c, vol v ≤ cut) : ∀ v, thresh a b c cut vol v = false := by
  intro v
  unfold thresh
  by_cases hv : v ∈ vbox a b c
  · simp [hv, not_lt.mpr (h0 v hv)]
  · simp [hv]

lemma thresh_of_all_gt {a b c : ℕ} {cut : ℚ} {vol : Vox → ℚ}
    (h1 : ∀ v ∈ vbox a b c, cut < vol v) :
    ∀ v, thresh a b c cut vol v = decide (v ∈ vbox a b c) := by
  intro v
  unfold thresh
  by_cases hv : v ∈ vbox a b c
  · simp [hv, h1 v hv]
  · simp [hv]

lemma sqNorm_nonneg (v : Vox) : 0 ≤ sqNorm v := by
  unfold sqNorm
  positivity

lemma sqNorm_neg (v : Vox) : sqNorm (-v) = sqNorm v := by
  obtain ⟨x, y, z⟩ := v
  simp [sqNorm, Prod.neg_mk, neg_sq]

lemma sqNorm_eq_zero {v : Vox} : sqNorm v = 0 ↔ v = 0 := by
  obtain ⟨x, y, z⟩ := v
  simp only [sqNorm, Prod.mk_eq_zero]
  constructor
  · intro h
    have hx : x ^ 2 = 0 := le_antisymm (by nlinarith [sq_nonneg y, sq_nonneg z]) (sq_nonneg x)
    have hy : y ^ 2 = 0 := le_antisymm (by nlinarith [sq_nonneg x, sq_nonneg z]) (sq_nonneg y)
    have hz : z ^ 2 = 0 := le_antisymm (by nlinarith [sq_nonneg x, sq_nonneg y]) (sq_nonneg z)
    exact ⟨pow_eq_zero_iff two_ne_zero |>.mp hx, pow_eq_zero_iff two_ne_zero |>.mp hy,
      pow_eq_zero_iff two_ne_zero |>.mp hz⟩
  · rintro ⟨rfl, rfl, rfl⟩
    ring

lemma border_mask_of_box (a b c : ℕ) (t : Vox) :
    border_mask (fun v => decide (v ∈ vbox a b c)) t = isFace a b c t := by
  obtain ⟨x, y, z⟩ := t
  rw [Bool.eq_iff_iff]
  simp only [border_mask, isFace, Bool.and_eq_true, Bool.or_eq_true, Bool.not_eq_true',
    decide_eq_true_eq, decide_eq_false_iff_not, ex, ey, ez, Prod.mk_add_mk, Prod.mk_sub_mk,
    mem_vbox, add_zero, sub_zero]
  omega

/-- Claim C9: every voxel that `_get_border` marks as boundary is itself a foreground
voxel of the thresholded volume — the boundary is detected on the foreground side of
each transition, so the boundary mask is a subset of the thresholded mask. -/
theorem get_border_subset_thresh (a b c : ℕ) (cut : ℚ) (vol : Vox → ℚ) (t : Vox)
    (h : get_border a b c cut vol t = true) : thresh a b c cut vol t = true :=
  border_mask_subset h

theorem get_border_subset_thresh_witness :
    thresh 1 1 1 0 (fun _ => 1) ((0 : ℤ), (0 : ℤ), (0 : ℤ)) = true :=
  get_border_subset_thresh 1 1 1 0 (fun _ => 1) ((0 : ℤ), (0 : ℤ), (0 : ℤ)) (by decide)

/-- Claim C2 counterexample: the 1×1×1 volume with constant value 1 is entirely
strictly above the threshold 1/2, yet `_get_border` marks its voxel (the zero padding
at the array faces creates a transition), so the boundary mask is not all-zero. -/
theorem get_border_full_volume_counterexample :
    (∀ v ∈ vbox 1 1 1, (0 : ℚ) < (fun _ : Vox => (1 : ℚ)) v)
    ∧ get_border 1 1 1 0 (fun _ => 1) ((0 : ℤ), (0 : ℤ), (0 : ℤ)) = true := by
  constructor
  · intro v _
    norm_num
  · decide

/-- Claim C2 (amended): a volume entirely ≤ the threshold has an all-zero boundary
mask; a volume entirely strictly above the threshold has boundary mask equal to the
indicator of the array faces (the zero padding creates a transition at every face),
not the all-zero mask. -/
theorem get_border_no_transitions (a b c : ℕ) (cut : ℚ) (vol0 vol1 : Vox → ℚ)
    (h0 : ∀ v ∈ vbox a b c, vol0 v ≤ cut)
    (h1 : ∀ v ∈ vbox a b c, cut < vol1 v) :
    (∀ t, get_border a b c cut vol0 t = false)
    ∧ (∀ t, get_border a b c cut vol1 t = isFace a b c t) := by
  constructor
  · intro t
    have hth : thresh a b c cut vol0 = fun _ => false := funext (thresh_of_all_le h0)
    unfold get_border
    rw [hth]
    simp [border_mask]
  · intro t
    have hth : thresh a b c cut vol1 = fun v => decide (v ∈ vbox a b c) :=
      funext (thresh_of_all_gt h1)
    unfold get_border
    rw [hth, border_mask_of_box]

theorem get_border_no_transitions_witness :
    ((∀ v ∈ vbox 2 2 2, (fun _ : Vox => (0 : ℚ)) v ≤ 0)
      ∧ (∀ v ∈ vbox 2 2 2, (0 : ℚ) < (fun _ : Vox => (1 : ℚ)) v))
    ∧ ((∀ t, get_border 2 2 2 0 (fun _ => 0) t = false)
      ∧ (∀ t, get_border 2 2 2 0 (fun _ => 1) t = isFace 2 2 2 t)) :=
  ⟨⟨by decide, by decide⟩,
    get_border_no_transitions 2 2 2 0 (fun _ => 0) (fun _ => 1) (by decide) (by decide)⟩

/-- Claim C8: for every radius ≥ 1 the distance map precomputed at construction is
symmetric under sign flip of the offset, its minimum value 0 is attained at the center
offset, and the center is the only offset where it vanishes. -/
theorem distance_map_symm_and_center_zero (r : ℕ) (h : 1 ≤ r) :
    (∀ v ∈ offsets r, distance_map r (-v) = distance_map r v)
    ∧ distance_map r 0 = 0
    ∧ (∀ v ∈ offsets r, 0 ≤ distance_map r v)
    ∧ (∀ v ∈ offsets r, (distance_map r v = 0 ↔ v = 0)) := by
  have hr2 : (1 : ℤ) ≤ (r : ℤ) ^ 2 := by
    have hr : (1 : ℤ) ≤ (r : ℤ) := by exact_mod_cast h
    nlinarith
  have hiff : ∀ v : Vox, (cappedSq r v = 0 ↔ sqNorm v = 0) := by
    intro v
    have hs := sqNorm_nonneg v
    unfold cappedSq
    revert hs hr2
    generalize sqNorm v = s
    generalize ((r : ℤ)) ^ 2 = R
    intro h1 h2
    omega
  refine ⟨?_, ?_, ?_, ?_⟩
  · intro v _
    unfold distance_map cappedSq
    rw [sqNorm_neg]
  · have h0 : cappedSq r 0 = 0 := (hiff 0).mpr (sqNorm_eq_zero.mpr rfl)
    unfold distance_map
    rw [h0]
    simp
  · intro v _
    exact Real.sqrt_nonneg _
  · intro v _
    unfold distance_map
    rw [Real.sqrt_eq_zero (by exact_mod_cast cappedSq_nonneg r v), Int.cast_eq_zero,
      hiff v, sqNorm_eq_zero]

theorem distance_map_symm_and_center_zero_witness :
    1 ≤ 5 ∧ ((∀ v ∈ offsets 5, distance_map 5 (-v) = distance_map 5 v)
      ∧ distance_map 5 0 = 0
      ∧ (∀ v ∈ offsets 5, 0 ≤ distance_map 5 v)
      ∧ (∀ v ∈ offsets 5, (distance_map 5 v = 0 ↔ v = 0))) :=
  ⟨by decide, distance_map_symm_and_center_zero 5 (by decide)⟩

/-- Claim C1 (amended): each directional term of `average_hausdorff_distance` is the
sum, over the source voxels (prediction-minus-overlap, resp. target-minus-overlap), of
the radius-clipped nearest Euclidean distance to the other volume's boundary, divided
by the count of *all* foreground voxels of the corresponding volume (`prediction.sum()`
resp. `target.sum()`) — not by the size of the source set — and a term is 0 when its
source set is empty. -/
theorem average_hausdorff_distance_eq_nearest (r : ℕ) (cut : ℚ) (a b c : ℕ)
    (P T : Vox → ℚ) :
    average_hausdorff_distance r cut a b c P T =
      (if maskSum a b c (fun v => thresh a b c cut P v && !thresh a b c cut T v) ≠ 0 then
        (∑ v ∈ (vbox a b c).filter
            (fun v => (thresh a b c cut P v && !thresh a b c cut T v) = true),
          Real.sqrt ((minCapSq r (border_mask (thresh a b c cut T)) v : ℤ) : ℝ))
          / (maskSum a b c (thresh a b c cut P) : ℝ)
      else 0)
      +
      (if maskSum a b c (fun v => thresh a b c cut T v && !thresh a b c cut P v) ≠ 0 then
        (∑ v ∈ (vbox a b c).filter
            (fun v => (thresh a b c cut T v && !thresh a b c cut P v) = true),
          Real.sqrt ((minCapSq r (border_mask (thresh a b c cut P)) v : ℤ) : ℝ))
          / (maskSum a b c (thresh a b c cut T) : ℝ)
      else 0) := by
  unfold average_hausdorff_distance directional_term
  simp only [minDistP_eq_sqrt_minCapSq]

/-- Prediction volume of the C1 counterexample: both voxels of a `1×1×2` array. -/
def volP12 : Vox → ℚ := fun _ => 1

/-- Target volume of the C1 counterexample: only the voxel `(0,0,0)`. -/
def volT12 : Vox → ℚ := fun v => if v = ((0 : ℤ), (0 : ℤ), (0 : ℤ)) then 1 else 0

lemma ahd_volP12_volT12 : average_hausdorff_distance 1 0 1 1 2 volP12 volT12 = 1 / 2 := by
  rw [average_hausdorff_distance_eq_nearest]
  rw [if_pos (show maskSum 1 1 2
      (fun v => thresh 1 1 2 0 volP12 v && !thresh 1 1 2 0 volT12 v) ≠ 0 by decide)]
  rw [if_neg (show ¬ maskSum 1 1 2
      (fun v => thresh 1 1 2 0 volT12 v && !thresh 1 1 2 0 volP12 v) ≠ 0 by decide)]
  rw [show (vbox 1 1 2).filter
      (fun v => (thresh 1 1 2 0 volP12 v && !thresh 1 1 2 0 volT12 v) = true)
      = {((0 : ℤ), (0 : ℤ), (1 : ℤ))} from by decide]
  rw [Finset.sum_singleton]
  rw [show minCapSq 1 (border_mask (thresh 1 1 2 0 volT12)) ((0 : ℤ), (0 : ℤ), (1 : ℤ)) = 1
    from by decide]
  rw [show maskSum 1 1 2 (thresh 1 1 2 0 volP12) = 2 from by decide]
  norm_num

lemma claimed_ahd_volP12_volT12 :
    claimed_average_hausdorff_distance 1 0 1 1 2 volP12 volT12 = 1 := by
  unfold claimed_average_hausdorff_distance directional_term
  simp only [minDistP_eq_sqrt_minCapSq]
  rw [if_pos (show maskSum 1 1 2
      (fun v => thresh 1 1 2 0 volP12 v && !thresh 1 1 2 0 volT12 v) ≠ 0 by decide)]
  rw [if_neg (show ¬ maskSum 1 1 2
      (fun v => thresh 1 1 2 0 volT12 v && !thresh 1 1 2 0 volP12 v) ≠ 0 by decide)]
  rw [show (vbox 1 1 2).filter
      (fun v => (thresh 1 1 2 0 volP12 v && !thresh 1 1 2 0 volT12 v) = true)
      = {((0 : ℤ), (0 : ℤ), (1 : ℤ))} from by decide]
  rw [Finset.sum_singleton]
  rw [show minCapSq 1 (border_mask (thresh 1 1 2 0 volT12)) ((0 : ℤ), (0 : ℤ), (1 : ℤ)) = 1
    from by decide]
  rw [show maskSum 1 1 2
      (fun v => thresh 1 1 2 0 volP12 v && !thresh 1 1 2 0 volT12 v) = 1 from by decide]
  norm_num

/-- Claim C1 counterexample: on a `1×1×2` array where the prediction covers both voxels
and the target only `(0,0,0)`, the directional average described by the claim
(nearest distances divided by the number of `prediction_only` voxels, here `1/1 = 1`)
differs from what the code computes (`min_dist.sum() / prediction.sum() = 1/2`): the
code divides by the total prediction foreground count, not by `|prediction_only|`. -/
theorem claimed_ahd_ne_source_ahd :
    claimed_average_hausdorff_distance 1 0 1 1 2 volP12 volT12
      ≠ average_hausdorff_distance 1 0 1 1 2 volP12 volT12 := by
  rw [ahd_volP12_volT12, claimed_ahd_volP12_volT12]
  norm_num

/-! ### The numpy path: `surface_distances` via Euclidean distance transforms -/

/-- Squared Euclidean distance transform (`scipy.ndimage.distance_transform_edt`): the
squared distance from `v` to the nearest zero voxel of the array `m`.  The fold base
`a² + b² + c²` strictly exceeds every squared distance between two in-box voxels, so it
only surfaces when the array has no zero voxel at all. -/
def edtSq (a b c : ℕ) (m : Vox → Bool) (v : Vox) : ℤ :=
  ((vbox a b c).filter (fun q => m q = false)).fold min
    ((a : ℤ) ^ 2 + (b : ℤ) ^ 2 + (c : ℤ) ^ 2) (fun q => sqNorm (v - q))

/-- The Euclidean distance transform itself. -/
noncomputable def edt (a b c : ℕ) (m : Vox → Bool) (v : Vox) : ℝ :=
  Real.sqrt ((edtSq a b c m v : ℤ) : ℝ)

/-- `(distance_transform_edt(mask) == 1)`: the voxels whose distance transform value is
exactly 1 (foreground voxels with a background voxel one step away). -/
def edtEdge (a b c : ℕ) (m : Vox → Bool) (v : Vox) : Bool :=
  decide (v ∈ vbox a b c) && decide (edtSq a b c m v = 1)

/-- Source `DistanceMetric.surface_distances`: detect each mask's edge as the voxels at
distance-transform value 1, compute the distance transform of the complement of each
edge, average the edge-to-opposite-surface distances in both directions, then average
the two directional means. -/
noncomputable def surface_distances (a b c : ℕ) (x y : Vox → Bool) : ℝ :=
  ((∑ v ∈ (vbox a b c).filter (fun v => edtEdge a b c x v = true),
      edt a b c (fun q => !(edtEdge a b c y q)) v)
    / (((vbox a b c).filter (fun v => edtEdge a b c x v = true)).card : ℝ)
  + (∑ v ∈ (vbox a b c).filter (fun v => edtEdge a b c y v = true),
      edt a b c (fun q => !(edtEdge a b c x q)) v)
    / (((vbox a b c).filter (fun v => edtEdge a b c y v = true)).card : ℝ)) / 2

/-- Prediction volume of the C4 example: a unit cube at `(0,0,0)` in a `4×1×1` array. -/
def volC4P : Vox → ℚ := fun v => if v = ((0 : ℤ), (0 : ℤ), (0 : ℤ)) then 1 else 0

/-- Target volume of the C4 example: a unit cube at `(3,0,0)`, offset 3 along axis 0. -/
def volC4T : Vox → ℚ := fun v => if v = ((3 : ℤ), (0 : ℤ), (0 : ℤ)) then 1 else 0

lemma sqrt_nine : Real.sqrt (((9 : ℤ) : ℤ) : ℝ) = 3 := by
  rw [show (((9 : ℤ) : ℤ) : ℝ) = 3 ^ 2 by norm_num]
  rw [Real.sqrt_sq (by norm_num)]

set_option maxRecDepth 40000

/-- Claim C4: two unit-cube masks offset by exactly 3 voxels along one axis with
`radius = 5` give `average_hausdorff_distance = 3 + 3 = 6` (sum of the two directional
averages) while `surface_distances` on the same pair gives `(3 + 3)/2 = 3` (symmetric
mean of the two directional means). -/
theorem ahd_six_surface_three :
    average_hausdorff_distance 5 0 4 1 1 volC4P volC4T = 6
    ∧ surface_distances 4 1 1 (thresh 4 1 1 0 volC4P) (thresh 4 1 1 0 volC4T) = 3 := by
  constructor
  · rw [average_hausdorff_distance_eq_nearest]
    rw [if_pos (show maskSum 4 1 1
        (fun v => thresh 4 1 1 0 volC4P v && !thresh 4 1 1 0 volC4T v) ≠ 0 by decide)]
    rw [if_pos (show maskSum 4 1 1
        (fun v => thresh 4 1 1 0 volC4T v && !thresh 4 1 1 0 volC4P v) ≠ 0 by decide)]
    rw [show (vbox 4 1 1).filter
        (fun v => (thresh 4 1 1 0 volC4P v && !thresh 4 1 1 0 volC4T v) = true)
        = {((0 : ℤ), (0 : ℤ), (0 : ℤ))} from by decide]
    rw [show (vbox 4 1 1).filter
        (fun v => (thresh 4 1 1 0 volC4T v && !thresh 4 1 1 0 volC4P v) = true)
        = {((3 : ℤ), (0 : ℤ), (0 : ℤ))} from by decide]
    rw [Finset.sum_singleton, Finset.sum_singleton]
    rw [show minCapSq 5 (border_mask (thresh 4 1 1 0 volC4T)) ((0 : ℤ), (0 : ℤ), (0 : ℤ)) = 9
      from by decide]
    rw [show minCapSq 5 (border_mask (thresh 4 1 1 0 volC4P)) ((3 : ℤ), (0 : ℤ), (0 : ℤ)) = 9
      from by decide]
    rw [show maskSum 4 1 1 (thresh 4 1 1 0 volC4P) = 1 from by decide]
    rw [show maskSum 4 1 1 (thresh 4 1 1 0 volC4T) = 1 from by decide]
    rw [sqrt_nine]
    norm_num
  · unfold surface_distances
    rw [show (vbox 4 1 1).filter
        (fun v => edtEdge 4 1 1 (thresh 4 1 1 0 volC4P) v = true)
        = {((0 : ℤ), (0 : ℤ), (0 : ℤ))} from by decide]
    rw [show (vbox 4 1 1).filter
        (fun v => edtEdge 4 1 1 (thresh 4 1 1 0 volC4T) v = true)
        = {((3 : ℤ), (0 : ℤ), (0 : ℤ))} from by decide]
    rw [Finset.sum_singleton, Finset.sum_singleton]
    unfold edt
    rw [show edtSq 4 1 1 (fun q => !(edtEdge 4 1 1 (thresh 4 1 1 0 volC4T) q))
        ((0 : ℤ), (0 : ℤ), (0 : ℤ)) = 9 from by decide]
    rw [show edtSq 4 1 1 (fun q => !(edtEdge 4 1 1 (thresh 4 1 1 0 volC4P) q))
        ((3 : ℤ), (0 : ℤ), (0 : ℤ)) = 9 from by decide]
    rw [sqrt_nine]
    norm_num

/-! ### The single-kernel fast path of `_pairwise_distances` -/

/-- Convolution with the collapsed kernel `kernels[:-1].sum(dim=0)`: since the kernels
partition the neighborhood by distance value, summing all of them except the last is
the indicator of the offsets whose clipped squared distance is among all distance
values but the largest (`(distVals r).dropLast`). -/
def convCountSK (r : ℕ) (y : Vox → Bool) (p : Vox) : ℕ :=
  ((offsets r).filter
    (fun u => y (p + u) && decide (cappedSq r u ∈ (distVals r).dropLast))).card

/-- Per-source-voxel value of `_pairwise_distances(x, y, single_kernel=True)`: with a
single channel, every nonzero convolution count indexes `distances[0]` (the smallest
distance value, the head of the sorted unique list) and every zero count is left at
`d_max = radius`. -/
noncomputable def singleKernelEntry (r : ℕ) (y : Vox → Bool) (p : Vox) : ℝ :=
  if convCountSK r y p ≠ 0 then Real.sqrt (((distVals r).headI : ℤ) : ℝ) else (r : ℝ)

lemma sorted_headI_eq_zero {l : List ℤ} (hs : l.Sorted (· ≤ ·)) (h0 : (0 : ℤ) ∈ l)
    (hpos : ∀ x ∈ l, 0 ≤ x) : l.headI = 0 := by
  cases l with
  | nil => cases h0
  | cons x xs =>
      have hx0 : 0 ≤ x := hpos x (List.mem_cons_self x xs)
      rcases List.mem_cons.mp h0 with h | h
      · simpa using h.symm
      · have := List.rel_of_sorted_cons hs 0 h
        simpa using le_antisymm this hx0

lemma sorted_le_getLast {l : List ℤ} (hs : l.Sorted (· ≤ ·)) (hne : l ≠ []) :
    ∀ x ∈ l, x ≤ l.getLast hne := by
  induction l with
  | nil => cases hne rfl
  | cons a xs ih =>
      intro x hx
      cases xs with
      | nil =>
          simp only [List.mem_singleton] at hx
          subst hx
          exact le_rfl
      | cons b ys =>
          have hne2 : b :: ys ≠ [] := by simp
          rw [List.getLast_cons hne2]
          rcases List.mem_cons.mp hx with rfl | hmem
          · exact List.rel_of_sorted_cons hs _ (List.getLast_mem hne2)
          · exact ih (List.sorted_cons.mp hs).2 hne2 x hmem

lemma mem_dropLast_iff {l : List ℤ} (hn : l.Nodup) (hne : l ≠ []) {x : ℤ} :
    x ∈ l.dropLast ↔ x ∈ l ∧ x ≠ l.getLast hne := by
  have hsplit : l.dropLast ++ [l.getLast hne] = l := List.dropLast_append_getLast hne
  constructor
  · intro hx
    refine ⟨by rw [← hsplit]; exact List.mem_append_left _ hx, ?_⟩
    intro heq
    have hmem : l.getLast hne ∈ l.dropLast := heq ▸ hx
    rw [← hsplit, List.nodup_append] at hn
    exact hn.2.2 hmem (List.mem_singleton_self _)
  · rintro ⟨hx, hxne⟩
    rw [← hsplit] at hx
    rcases List.mem_append.mp hx with h | h
    · exact h
    · exact absurd (List.mem_singleton.mp h) hxne

lemma cappedSq_zero (r : ℕ) : cappedSq r 0 = 0 := by
  unfold cappedSq
  rw [show sqNorm 0 = 0 from by decide]
  exact min_eq_left (sq_nonneg _)

lemma zero_mem_offsets (r : ℕ) : (0 : Vox) ∈ offsets r := by
  unfold offsets
  simp only [Finset.mem_product, Finset.mem_Icc, Prod.fst_zero, Prod.snd_zero]
  omega

lemma rfirst_mem_offsets (r : ℕ) : (((r : ℤ), 0, 0) : Vox) ∈ offsets r := by
  unfold offsets
  simp only [Finset.mem_product, Finset.mem_Icc]
  omega

lemma cappedSq_rfirst (r : ℕ) : cappedSq r ((r : ℤ), 0, 0) = (r : ℤ) ^ 2 := by
  unfold cappedSq sqNorm
  norm_num

lemma zero_mem_distVals (r : ℕ) : (0 : ℤ) ∈ distVals r :=
  mem_distVals.mpr ⟨0, zero_mem_offsets r, cappedSq_zero r⟩

lemma rsq_mem_distVals (r : ℕ) : ((r : ℤ) ^ 2) ∈ distVals r :=
  mem_distVals.mpr ⟨((r : ℤ), 0, 0), rfirst_mem_offsets r, cappedSq_rfirst r⟩

lemma distVals_ne_nil (r : ℕ) : distVals r ≠ [] :=
  List.ne_nil_of_mem (zero_mem_distVals r)

lemma distVals_sorted (r : ℕ) : (distVals r).Sorted (· ≤ ·) := Finset.sort_sorted _ _

lemma distVals_nodup (r : ℕ) : (distVals r).Nodup := Finset.sort_nodup _ _

lemma distVals_headI (r : ℕ) : (distVals r).headI = 0 :=
  sorted_headI_eq_zero (distVals_sorted r) (zero_mem_distVals r)
    (fun x hx => by
      rcases mem_distVals.mp hx with ⟨u, _, rfl⟩
      exact cappedSq_nonneg r u)

lemma distVals_getLast (r : ℕ) :
    (distVals r).getLast (distVals_ne_nil r) = (r : ℤ) ^ 2 := by
  refine le_antisymm ?_ ?_
  · rcases mem_distVals.mp (List.getLast_mem (distVals_ne_nil r)) with ⟨u, _, heq⟩
    rw [← heq]
    exact cappedSq_le_sq r u
  · exact sorted_le_getLast (distVals_sorted r) (distVals_ne_nil r) _ (rsq_mem_distVals r)

lemma cappedSq_mem_dropLast_iff (r : ℕ) {u : Vox} (hu : u ∈ offsets r) :
    cappedSq r u ∈ (distVals r).dropLast ↔ sqNorm u < (r : ℤ) ^ 2 := by
  rw [mem_dropLast_iff (distVals_nodup r) (distVals_ne_nil r), distVals_getLast r]
  have hmem : cappedSq r u ∈ distVals r := mem_distVals.mpr ⟨u, hu, rfl⟩
  have hle := cappedSq_le_sq r u
  constructor
  · rintro ⟨-, hne⟩
    have hlt := lt_of_le_of_ne hle hne
    unfold cappedSq at hlt
    revert hlt
    generalize sqNorm u = s
    generalize ((r : ℤ)) ^ 2 = R
    intro hlt
    omega
  · intro hlt
    refine ⟨hmem, ?_⟩
    unfold cappedSq
    revert hlt
    generalize sqNorm u = s
    generalize ((r : ℤ)) ^ 2 = R
    intro hlt
    omega

/-- Claim C10: with `single_kernel=True` every per-voxel value of
`_pairwise_distances` is either 0 or exactly `radius`: it is 0 precisely when some
target voxel lies in the collapsed neighborhood (offsets whose distance-map value is
strictly below `radius`, i.e. squared norm below `radius²`), because the single
channel indexes `distances[0] = 0`; otherwise the `d_max = radius` default is kept. -/
theorem single_kernel_entry_zero_or_radius (r : ℕ) (h : 1 ≤ r) (y : Vox → Bool) (p : Vox) :
    (singleKernelEntry r y p = 0 ∨ singleKernelEntry r y p = (r : ℝ))
    ∧ (singleKernelEntry r y p = 0 ↔
        ∃ u ∈ offsets r, y (p + u) = true ∧ sqNorm u < (r : ℤ) ^ 2) := by
  have hcnt : convCountSK r y p ≠ 0 ↔
      ∃ u ∈ offsets r, y (p + u) = true ∧ sqNorm u < (r : ℤ) ^ 2 := by
    unfold convCountSK
    rw [Ne, Finset.card_eq_zero, ← Ne, ← Finset.nonempty_iff_ne_empty]
    constructor
    · rintro ⟨u, hu⟩
      simp only [Finset.mem_filter, Bool.and_eq_true, decide_eq_true_eq] at hu
      exact ⟨u, hu.1, hu.2.1, (cappedSq_mem_dropLast_iff r hu.1).mp hu.2.2⟩
    · rintro ⟨u, hu, hy, hlt⟩
      refine ⟨u, Finset.mem_filter.mpr ⟨hu, ?_⟩⟩
      simp only [Bool.and_eq_true, decide_eq_true_eq]
      exact ⟨hy, (cappedSq_mem_dropLast_iff r hu).mpr hlt⟩
  by_cases hc : convCountSK r y p ≠ 0
  · have hval : singleKernelEntry r y p = 0 := by
      unfold singleKernelEntry
      rw [if_pos hc, distVals_headI r]
      simp
    rw [hval]
    exact ⟨Or.inl rfl, ⟨fun _ => hcnt.mp hc, fun _ => rfl⟩⟩
  · have hval : singleKernelEntry r y p = (r : ℝ) := by
      unfold singleKernelEntry
      rw [if_neg hc]
    have hrne : (r : ℝ) ≠ 0 := by
      have : 0 < r := h
      positivity
    rw [hval]
    refine ⟨Or.inr rfl, ?_⟩
    constructor
    · intro h0
      exact absurd h0 hrne
    · intro hex
      exact absurd (hcnt.mpr hex) hc

theorem single_kernel_entry_zero_or_radius_witness :
    1 ≤ 1 ∧ ((singleKernelEntry 1 (fun _ => true) 0 = 0
        ∨ singleKernelEntry 1 (fun _ => true) 0 = (1 : ℝ))
      ∧ (singleKernelEntry 1 (fun _ => true) 0 = 0 ↔
          ∃ u ∈ offsets 1, (fun _ : Vox => true) (0 + u) = true ∧ sqNorm u < (1 : ℤ) ^ 2)) :=
  ⟨by decide, by
    have := single_kernel_entry_zero_or_radius 1 (by decide) (fun _ => true) 0
    simpa using this⟩

/-! ### `corrupt_data` from `script/test_motion_1D.py` -/

/-- Branch `method == 'gauss'`: `y = np.exp(-(x - x0)**2 / float(2*sigma**2)) * amplitude`. -/
noncomputable def gauss_course (x0 sigma : ℕ) (amplitude : ℝ) : ℕ → ℝ :=
  fun t => Real.exp (-(((t : ℝ) - (x0 : ℝ)) ^ 2) / (2 * (sigma : ℝ) ^ 2)) * amplitude

/-- Branch `method == 'step'`: zeros up to `x0 - sigma`, a linear ramp
(`np.linspace(0, ±amplitude, 2*sigma + 1)`, entry `j` being `±amplitude * j / (2*sigma)`)
on `[x0 - sigma, x0 + sigma]`, then a `±amplitude` plateau.  The sign is `+` when
`x0 < 100` and `-` otherwise — the hard-coded constant `100` from the source, not
`resolution / 2`. -/
noncomputable def step_course (x0 sigma : ℕ) (amplitude : ℝ) (resolution : ℕ) : ℕ → ℝ :=
  fun t =>
    if x0 < 100 then
      if t < x0 - sigma then 0
      else if t ≤ x0 + sigma then
        amplitude * ((t : ℝ) - ((x0 - sigma : ℕ) : ℝ)) / (2 * (sigma : ℝ))
      else amplitude
    else
      if t < x0 - sigma then 0
      else if t ≤ x0 + sigma then
        -amplitude * ((t : ℝ) - ((x0 - sigma : ℕ) : ℝ)) / (2 * (sigma : ℝ))
      else -amplitude

/-- Branch `method == '2step'` (`sigma` and `amplitude` passed as lists): zeros, ramp up
to `amplitude[0]`, plateau, ramp to `amplitude[1]`, plateau, ramp down to 0, zero tail. -/
noncomputable def twostep_course (x0 : ℕ) (sigma_l : List ℕ) (amplitude_l : List ℝ)
    (resolution : ℕ) : ℕ → ℝ :=
  let s0 := sigma_l.headI
  let s1 := sigma_l.getD 1 0
  let s2 := sigma_l.getD 2 0
  let a0 := amplitude_l.headI
  let a1 := amplitude_l.getD 1 0
  let b0 := x0 - s0
  let b1 := b0 + 2 * s0 + 1
  let b2 := b1 + (s1 - 1)
  let b3 := b2 + 2 * s0 + 1
  let b4 := b3 + (s2 - 1)
  let b5 := b4 + 2 * s0 + 1
  fun t =>
    if t < b0 then 0
    else if t < b1 then a0 * ((t : ℝ) - (b0 : ℝ)) / (2 * (s0 : ℝ))
    else if t < b2 then a0
    else if t < b3 then a0 + (a1 - a0) * ((t : ℝ) - (b2 : ℝ)) / (2 * (s0 : ℝ))
    else if t < b4 then a1
    else if t < b5 then a1 + (0 - a1) * ((t : ℝ) - (b4 : ℝ)) / (2 * (s0 : ℝ))
    else 0

/-- Branch `method == 'Ustep'`: a rectangular pulse of height `amplitude` on
`[max(0, x0 - sigma//2), x0 + sigma//2)` (natural subtraction models `np.max([0, ...])`). -/
def ustep_course (x0 sigma : ℕ) (amplitude : ℝ) : ℕ → ℝ :=
  fun t => if x0 - sigma / 2 ≤ t ∧ t < x0 + sigma / 2 then amplitude else 0

/-- Branch `method == 'sin'`: `y = np.sin(x / x0 * 2 * np.pi)` (`amplitude` is unused). -/
noncomputable def sin_course (x0 : ℕ) : ℕ → ℝ :=
  fun t => Real.sin ((t : ℝ) / (x0 : ℝ) * (2 * Real.pi))

/-- `if center == 'zero': y = y - y[resolution // 2]`. -/
noncomputable def centered_course (center : String) (resolution : ℕ) (y : ℕ → ℝ) : ℕ → ℝ :=
  if center = "zero" then fun t => y t - y (resolution / 2) else y

/-- Python errors the reimplementation distinguishes: the `UnboundLocalError` raised
when `y` is read without ever being assigned, and the `InvalidParameter` error the
spec demands for an unrecognized `method`. -/
inductive PyErr where
  | unboundLocal
  | invalidParameter
deriving DecidableEq

/-- Shape of the value `corrupt_data` returns: either a bare 1-D course or a 6-row
array (one row per rigid-motion axis). -/
inductive CourseRet where
  | oneD (y : ℕ → ℝ)
  | sixRow (fp : Fin 6 → ℕ → ℝ)

/-- The local array `fp = np.zeros((6, resolution)); for xx in mvt_axes: fp[xx,:] = y`
of `corrupt_data` (computed but *not* returned by the source). -/
def course_fp (mvt_axes : List ℕ) (resolution : ℕ) (y : ℕ → ℝ) : ℕ → ℕ → ℝ :=
  fun ax t => if ax ∈ mvt_axes ∧ ax < 6 ∧ t < resolution then y t else 0

/-- The method names the `if/elif` chain of `corrupt_data` recognizes. -/
def recognizedMethod (method : String) : Prop :=
  method = "gauss" ∨ method = "2step" ∨ method = "step" ∨ method = "Ustep" ∨ method = "sin"

instance (method : String) : Decidable (recognizedMethod method) := by
  unfold recognizedMethod
  infer_instance

/-- Source `corrupt_data`: dispatch on `method`, apply the `center == 'zero'` shift, and
`return y` — always the bare 1-D course, never the 6-row `fp` (which is computed into a
local and discarded).  An unrecognized `method` leaves `y` unassigned, so the first
read of `y` raises `UnboundLocalError`. -/
noncomputable def corrupt_data (x0 sigma : ℕ) (sigma_l : List ℕ) (amplitude : ℝ)
    (amplitude_l : List ℝ) (method : String) (mvt_axes : List ℕ) (center : String)
    (resolution : ℕ) : Except PyErr CourseRet :=
  if method = "gauss" then
    .ok (.oneD (centered_course center resolution (gauss_course x0 sigma amplitude)))
  else if method = "2step" then
    .ok (.oneD (centered_course center resolution
      (twostep_course x0 sigma_l amplitude_l resolution)))
  else if method = "step" then
    .ok (.oneD (centered_course center resolution (step_course x0 sigma amplitude resolution)))
  else if method = "Ustep" then
    .ok (.oneD (centered_course center resolution (ustep_course x0 sigma amplitude)))
  else if method = "sin" then
    .ok (.oneD (centered_course center resolution (sin_course x0)))
  else
    .error .unboundLocal

/-- Whether a `corrupt_data` result is the 6-row broadcast array. -/
def isSixRow : Except PyErr CourseRet → Bool
  | .ok (.sixRow _) => true
  | _ => false

/-- Sign probe for the step course: its total rise, final value minus first value
(unaffected by the `center == 'zero'` shift, which moves both by the same amount). -/
noncomputable def step_sign (x0 sigma : ℕ) (amplitude : ℝ) (resolution : ℕ) : ℝ :=
  step_course x0 sigma amplitude resolution (resolution - 1)
    - step_course x0 sigma amplitude resolution 0

/-- Claim C5 counterexample: with `resolution = 300` the center `x0 = 130` lies in the
first half of the range (`130 < 150`), yet the produced step is negative — the source
branches on the hard-coded `x0 < 100`, not on the half of `[0, resolution)`. -/
theorem step_sign_counterexample :
    2 * 130 < 300 ∧ step_sign 130 5 (20 : ℝ) 300 < 0 := by
  constructor
  · norm_num
  · norm_num [step_sign, step_course]

/-- Claim C5 (amended): for a valid step configuration (`sigma ≤ x0`,
`x0 + sigma < resolution - 1`) with positive amplitude, the sign of the produced step
is positive exactly when `x0 < 100` (the hard-coded threshold of the source) and
negative otherwise — which agrees with the "first half of the range" reading only when
`resolution = 200`. -/
theorem step_sign_iff (x0 sigma : ℕ) (amplitude : ℝ) (resolution : ℕ)
    (hsx : sigma ≤ x0) (hxr : x0 + sigma < resolution - 1) (hamp : 0 < amplitude) :
    (x0 < 100 → step_sign x0 sigma amplitude resolution = amplitude)
    ∧ (100 ≤ x0 → step_sign x0 sigma amplitude resolution = -amplitude)
    ∧ (0 < step_sign x0 sigma amplitude resolution ↔ x0 < 100) := by
  have hlast_lt : ¬ resolution - 1 < x0 - sigma := by omega
  have hlast_le : ¬ resolution - 1 ≤ x0 + sigma := by omega
  have hval : ∀ s : ℝ, step_sign x0 sigma s resolution
      = (if x0 < 100 then s else -s) := by
    intro s
    unfold step_sign step_course
    by_cases h0 : (0 : ℕ) < x0 - sigma
    · by_cases hx : x0 < 100
      · rw [if_pos hx, if_pos hx, if_neg hlast_lt, if_neg hlast_le, if_pos h0, if_pos hx]
        ring
      · rw [if_neg hx, if_neg hx, if_neg hlast_lt, if_neg hlast_le, if_pos h0, if_neg hx]
        ring
    · have hz : x0 - sigma = 0 := by omega
      by_cases hx : x0 < 100
      · rw [if_pos hx, if_pos hx, if_neg hlast_lt, if_neg hlast_le, if_neg h0,
          if_pos (Nat.zero_le (x0 + sigma)), hz, if_pos hx]
        norm_num
      · rw [if_neg hx, if_neg hx, if_neg hlast_lt, if_neg hlast_le, if_neg h0,
          if_pos (Nat.zero_le (x0 + sigma)), hz, if_neg hx]
        norm_num
  refine ⟨fun hx => by rw [hval, if_pos hx], fun hx => by rw [hval, if_neg (by omega)], ?_⟩
  rw [hval]
  by_cases hx : x0 < 100
  · rw [if_pos hx]
    exact ⟨fun _ => hx, fun _ => hamp⟩
  · rw [if_neg hx]
    constructor
    · intro hpos
      linarith
    · intro h
      exact absurd h hx

theorem step_sign_iff_witness :
    (2 ≤ 10 ∧ 10 + 2 < 300 - 1 ∧ (0 : ℝ) < 1)
    ∧ ((10 < 100 → step_sign 10 2 1 300 = 1)
      ∧ (100 ≤ 10 → step_sign 10 2 1 300 = -1)
      ∧ (0 < step_sign 10 2 1 300 ↔ 10 < 100)) :=
  ⟨⟨by decide, by decide, by norm_num⟩,
    step_sign_iff 10 2 1 300 (by decide) (by decide) (by norm_num)⟩

lemma course_fp_spec (mvt_axes : List ℕ) (resolution : ℕ) (y : ℕ → ℝ) :
    (∀ ax ∈ mvt_axes, ax < 6 → ∀ t < resolution, course_fp mvt_axes resolution y ax t = y t)
    ∧ (∀ ax, ax ∉ mvt_axes → ∀ t, course_fp mvt_axes resolution y ax t = 0) := by
  constructor
  · intro ax hax h6 t ht
    unfold course_fp
    rw [if_pos ⟨hax, h6, ht⟩]
  · intro ax hax t
    unfold course_fp
    rw [if_neg (fun h => hax h.1)]

/-- Claim C6 counterexample: a call with two requested motion axes still returns the
bare 1-D course, not the 6-row broadcast array — `corrupt_data` assembles `fp` into a
local and then executes `return y`. -/
theorem corrupt_data_multi_axis_counterexample :
    (([0, 1] : List ℕ).length > 1)
    ∧ isSixRow (corrupt_data 100 5 [] (20 : ℝ) [] "step" [0, 1] "zero" 200) = false :=
  ⟨by decide, rfl⟩

/-- Claim C6 (amended): for every recognized method the returned value is always the
bare 1-D (centered) course, whatever the number of requested axes; the 6-row broadcast
`fp` — whose rows are the course on the requested axes and zero elsewhere — is only a
discarded local. -/
theorem corrupt_data_returns_bare_course (x0 sigma : ℕ) (sigma_l : List ℕ) (amplitude : ℝ)
    (amplitude_l : List ℝ) (method : String) (mvt_axes : List ℕ) (center : String)
    (resolution : ℕ) (h : recognizedMethod method) :
    ∃ y : ℕ → ℝ,
      corrupt_data x0 sigma sigma_l amplitude amplitude_l method mvt_axes center resolution
        = .ok (.oneD y)
      ∧ (∀ ax ∈ mvt_axes, ax < 6 → ∀ t < resolution, course_fp mvt_axes resolution y ax t = y t)
      ∧ (∀ ax, ax ∉ mvt_axes → ∀ t, course_fp mvt_axes resolution y ax t = 0) := by
  unfold recognizedMethod at h
  unfold corrupt_data
  rcases h with rfl | rfl | rfl | rfl | rfl
  · exact ⟨_, rfl, course_fp_spec _ _ _⟩
  · exact ⟨_, rfl, course_fp_spec _ _ _⟩
  · exact ⟨_, rfl, course_fp_spec _ _ _⟩
  · exact ⟨_, rfl, course_fp_spec _ _ _⟩
  · exact ⟨_, rfl, course_fp_spec _ _ _⟩

theorem corrupt_data_returns_bare_course_witness :
    recognizedMethod "step"
    ∧ ∃ y : ℕ → ℝ,
      corrupt_data 100 5 [] (20 : ℝ) [] "step" [0, 1] "zero" 200 = .ok (.oneD y)
      ∧ (∀ ax ∈ ([0, 1] : List ℕ), ax < 6 → ∀ t < 200, course_fp [0, 1] 200 y ax t = y t)
      ∧ (∀ ax, ax ∉ ([0, 1] : List ℕ) → ∀ t, course_fp [0, 1] 200 y ax t = 0) :=
  ⟨by decide,
    corrupt_data_returns_bare_course 100 5 [] (20 : ℝ) [] "step" [0, 1] "zero" 200 (by decide)⟩

/-- Claim C7: on an unrecognized `method` name the source leaves `y` unassigned and the
next read of `y` raises `UnboundLocalError` — it does not raise the explicit
`InvalidParameter` error the specification requires. -/
theorem corrupt_data_unknown_method (x0 sigma : ℕ) (sigma_l : List ℕ) (amplitude : ℝ)
    (amplitude_l : List ℝ) (method : String) (mvt_axes : List ℕ) (center : String)
    (resolution : ℕ) (h : ¬ recognizedMethod method) :
    corrupt_data x0 sigma sigma_l amplitude amplitude_l method mvt_axes center resolution
        = .error .unboundLocal
      ∧ corrupt_data x0 sigma sigma_l amplitude amplitude_l method mvt_axes center resolution
        ≠ .error .invalidParameter := by
  unfold recognizedMethod at h
  push_neg at h
  obtain ⟨h1, h2, h3, h4, h5⟩ := h
  unfold corrupt_data
  rw [if_neg h1, if_neg h2, if_neg h3, if_neg h4, if_neg h5]
  exact ⟨rfl, by simp⟩

theorem corrupt_data_unknown_method_witness :
    ¬ recognizedMethod "sinusoid"
    ∧ (corrupt_data 100 5 [] (20 : ℝ) [] "sinusoid" [1] "zero" 200 = .error .unboundLocal
      ∧ corrupt_data 100 5 [] (20 : ℝ) [] "sinusoid" [1] "zero" 200
        ≠ .error .invalidParameter) :=
  ⟨by decide,
    corrupt_data_unknown_method 100 5 [] (20 : ℝ) [] "sinusoid" [1] "zero" 200 (by decide)⟩

/-! ### `simu_motion` from `script/test_motion_1D.py`

A 1-D signal of length `n` is a function `ZMod n → ℂ` (array indices mod `n`, which is
how all shifts act).  `np.fft.fftn` and `np.fft.ifftn` are the unnormalized forward
transform `X[k] = Σ_j exp(-2πi·j·k/n)·x[j]` and its `1/n`-normalized inverse; these are
exactly `ZMod.dft` and its inverse. -/

/-- `np.fft.fftn` (1-D): the discrete Fourier transform with the `exp(-2πi·j·k/n)`
kernel, `ZMod.stdAddChar (-(j * k))` being `exp(2πi·(-(j·k))/n)`. -/
noncomputable def fftn (n : ℕ) [NeZero n] (x : ZMod n → ℂ) : ZMod n → ℂ :=
  fun k => ∑ j : ZMod n, ZMod.stdAddChar (-(j * k)) • x j

/-- `np.fft.ifftn` (1-D): the inverse transform with the `exp(+2πi·j·k/n)` kernel and
the `1/n` normalization. -/
noncomputable def ifftn (n : ℕ) [NeZero n] (x : ZMod n → ℂ) : ZMod n → ℂ :=
  fun k => (n : ℂ)⁻¹ • ∑ j : ZMod n, ZMod.stdAddChar (j * k) • x j

/-- `np.fft.fftshift` (1-D): `fftshift(x)[k] = x[(k + ⌈n/2⌉) mod n]`. -/
def fftshift (n : ℕ) (x : ZMod n → ℂ) : ZMod n → ℂ :=
  fun k => x (k + (((n + 1) / 2 : ℕ) : ZMod n))

/-- `np.fft.ifftshift` (1-D), the inverse of `fftshift`:
`ifftshift(x)[k] = x[(k + ⌊n/2⌋) mod n]`. -/
def ifftshift (n : ℕ) (x : ZMod n → ℂ) : ZMod n → ℂ :=
  fun k => x (k + ((n / 2 : ℕ) : ZMod n))

lemma fftn_eq_dft (n : ℕ) [NeZero n] (x : ZMod n → ℂ) : fftn n x = ZMod.dft x := rfl

lemma ifftn_eq_invdft (n : ℕ) [NeZero n] (x : ZMod n → ℂ) :
    ifftn n x = (ZMod.dft).symm x := by
  funext k
  exact (ZMod.invDFT_apply x k).symm

lemma ifftn_fftn (n : ℕ) [NeZero n] (x : ZMod n → ℂ) : ifftn n (fftn n x) = x := by
  rw [fftn_eq_dft, ifftn_eq_invdft]
  exact ZMod.dft.symm_apply_apply x

/-- Transform of a circular shift: modulation by `exp(2πi·a·k/n)`. -/
lemma fftn_shift (n : ℕ) [NeZero n] (x : ZMod n → ℂ) (a k : ZMod n) :
    fftn n (fun j => x (j + a)) k = ZMod.stdAddChar (a * k) * fftn n x k := by
  unfold fftn
  rw [Finset.mul_sum]
  refine Fintype.sum_equiv (Equiv.addRight a) _ _ ?_
  intro j
  rw [Equiv.coe_addRight, smul_eq_mul, smul_eq_mul, ← mul_assoc, ← AddChar.map_add_eq_mul]
  congr 1
  ring

/-- Inverse transform of a circular shift: modulation by `exp(-2πi·a·t/n)`. -/
lemma ifftn_shift (n : ℕ) [NeZero n] (x : ZMod n → ℂ) (a t : ZMod n) :
    ifftn n (fun k => x (k + a)) t = ZMod.stdAddChar (-(a * t)) * ifftn n x t := by
  have key : ∑ j : ZMod n, ZMod.stdAddChar (j * t) • x (j + a)
      = ZMod.stdAddChar (-(a * t)) * ∑ j : ZMod n, ZMod.stdAddChar (j * t) • x j := by
    rw [Finset.mul_sum]
    refine Fintype.sum_equiv (Equiv.addRight a) _ _ ?_
    intro j
    rw [Equiv.coe_addRight, smul_eq_mul, smul_eq_mul, ← mul_assoc, ← AddChar.map_add_eq_mul]
    congr 1
    ring
  show (n : ℂ)⁻¹ • ∑ j : ZMod n, ZMod.stdAddChar (j * t) • x (j + a)
      = ZMod.stdAddChar (-(a * t)) * ((n : ℂ)⁻¹ • ∑ j : ZMod n, ZMod.stdAddChar (j * t) • x j)
  rw [key, smul_eq_mul, smul_eq_mul]
  ring

/-- Inverse transform of a modulated spectrum: a circular shift. -/
lemma ifftn_modulate (n : ℕ) [NeZero n] (x : ZMod n → ℂ) (a t : ZMod n) :
    ifftn n (fun k => ZMod.stdAddChar (a * k) * x k) t = ifftn n x (t + a) := by
  unfold ifftn
  congr 1
  refine Finset.sum_congr rfl ?_
  intro k _
  rw [smul_eq_mul, smul_eq_mul, ← mul_assoc, ← AddChar.map_add_eq_mul]
  congr 1
  ring

/-- Scalars pull out of the inverse transform. -/
lemma ifftn_const_mul (n : ℕ) [NeZero n] (x : ZMod n → ℂ) (c : ℂ) (t : ZMod n) :
    ifftn n (fun k => c * x k) t = c * ifftn n x t := by
  have key : ∑ j : ZMod n, ZMod.stdAddChar (j * t) • (c * x j)
      = c * ∑ j : ZMod n, ZMod.stdAddChar (j * t) • x j := by
    rw [Finset.mul_sum]
    refine Finset.sum_congr rfl ?_
    intro k _
    rw [smul_eq_mul, smul_eq_mul]
    ring
  show (n : ℂ)⁻¹ • ∑ j : ZMod n, ZMod.stdAddChar (j * t) • (c * x j)
      = c * ((n : ℂ)⁻¹ • ∑ j : ZMod n, ZMod.stdAddChar (j * t) • x j)
  rw [key, smul_eq_mul, smul_eq_mul]
  ring

/-- The frequency axis `kx = np.arange(-1, 1 + 2/resolution, 2/(resolution-1))`:
`kx[j] = -1 + 2·j/(n-1)`. -/
noncomputable def kxAxis (n : ℕ) (k : ZMod n) : ℝ := -1 + 2 * (k.val : ℝ) / ((n : ℝ) - 1)

/-- The phase ramp `fp_kspace = np.exp(-1j * math.pi * kx * fp)`. -/
noncomputable def fp_kspace (n : ℕ) (fp : ZMod n → ℝ) (k : ZMod n) : ℂ :=
  Complex.exp (-Complex.I * (Real.pi : ℂ) * (kxAxis n k : ℂ) * (fp k : ℂ))

/-- Source `simu_motion` before the magnitude reduction:
`fi = fftshift(fftn(ifftshift(so)))`, `fm = fi * fp_kspace`, `som = ifftshift(ifftn(fm))`. -/
noncomputable def simu_motion_c (n : ℕ) [NeZero n] (fp : ZMod n → ℝ) (so : ZMod n → ℂ) :
    ZMod n → ℂ :=
  ifftshift n (ifftn n (fun k =>
    fftshift n (fftn n (ifftshift n so)) k * fp_kspace n fp k))

/-- Source `simu_motion` with `return_abs=True`: the magnitude of `som`. -/
noncomputable def simu_motion (n : ℕ) [NeZero n] (fp : ZMod n → ℝ) (so : ZMod n → ℂ) :
    ZMod n → ℝ :=
  fun t => Complex.abs (simu_motion_c n fp so t)

/-- With an all-zero displacement course the phase ramp is identically 1 and the
composition of the centered transforms collapses to a unit-modulus phase times a
circular shift by `2·⌊n/2⌋` (which is zero for even `n`). -/
lemma simu_motion_c_zero (n : ℕ) [NeZero n] (so : ZMod n → ℂ) (t : ZMod n) :
    simu_motion_c n 0 so t
      = ZMod.stdAddChar (-((((n + 1) / 2 : ℕ) : ZMod n) * (t + ((n / 2 : ℕ) : ZMod n))))
        * so (t + ((n / 2 : ℕ) : ZMod n) + ((n / 2 : ℕ) : ZMod n)) := by
  set cU : ZMod n := (((n + 1) / 2 : ℕ) : ZMod n) with hcU
  set cD : ZMod n := ((n / 2 : ℕ) : ZMod n) with hcD
  have hramp : ∀ k : ZMod n, fp_kspace n 0 k = 1 := by
    intro k
    unfold fp_kspace
    simp
  have hfm : (fun k => fftshift n (fftn n (ifftshift n so)) k * fp_kspace n 0 k)
      = fun k => ZMod.stdAddChar (cD * cU)
          * (ZMod.stdAddChar (cD * k) * fftn n so (k + cU)) := by
    funext k
    rw [hramp k, mul_one]
    show fftn n (fun j => so (j + cD)) (k + cU) = _
    rw [fftn_shift n so cD (k + cU)]
    rw [show cD * (k + cU) = cD * cU + cD * k from by ring, AddChar.map_add_eq_mul]
    ring
  have hstep : ∀ s : ZMod n,
      ifftn n (fun k => fftshift n (fftn n (ifftshift n so)) k * fp_kspace n 0 k) s
        = ZMod.stdAddChar (-(cU * s)) * so (s + cD) := by
    intro s
    rw [hfm, ifftn_const_mul, ifftn_modulate, ifftn_shift, ifftn_fftn]
    rw [← mul_assoc, ← AddChar.map_add_eq_mul]
    congr 1
    ring
  show ifftn n (fun k =>
      fftshift n (fftn n (ifftshift n so)) k * fp_kspace n 0 k) (t + cD) = _
  rw [hstep (t + cD)]

/-- Claim C3 (amended): for an even resolution, `simu_motion` with an all-zero
displacement course returns the input signal unchanged provided the signal is real and
non-negative; in general the pipeline returns the pointwise magnitude of the signal
(the identically-1 phase ramp leaves only a unit-modulus phase, which the final
magnitude reduction removes). -/
theorem simu_motion_zero_course (n : ℕ) [NeZero n] (hn : n % 2 = 0) (so : ZMod n → ℂ)
    (hreal : ∀ s, (so s).im = 0) (hpos : ∀ s, 0 ≤ (so s).re) (t : ZMod n) :
    ((simu_motion n 0 so t : ℝ) : ℂ) = so t := by
  have h2cD : t + ((n / 2 : ℕ) : ZMod n) + ((n / 2 : ℕ) : ZMod n) = t := by
    rw [add_assoc, ← Nat.cast_add, show n / 2 + n / 2 = n from by omega,
      ZMod.natCast_self, add_zero]
  unfold simu_motion
  rw [simu_motion_c_zero, h2cD, map_mul]
  rw [show Complex.abs (ZMod.stdAddChar
      (-((((n + 1) / 2 : ℕ) : ZMod n) * (t + ((n / 2 : ℕ) : ZMod n))))) = 1 from by
    rw [ZMod.stdAddChar_apply]
    exact Circle.abs_coe _]
  rw [one_mul]
  have hre : ((so t).re : ℂ) = so t := Complex.ext (by simp) (by simp [hreal t])
  have habs : Complex.abs (so t) = (so t).re := by
    nth_rewrite 1 [← hre]
    rw [Complex.abs_ofReal, abs_of_nonneg (hpos t)]
  rw [habs, hre]

theorem simu_motion_zero_course_witness :
    (2 % 2 = 0
      ∧ (∀ s : ZMod 2, ((fun _ : ZMod 2 => (1 : ℂ)) s).im = 0)
      ∧ (∀ s : ZMod 2, 0 ≤ ((fun _ : ZMod 2 => (1 : ℂ)) s).re))
    ∧ ((simu_motion 2 0 (fun _ => (1 : ℂ)) 0 : ℝ) : ℂ) = (fun _ : ZMod 2 => (1 : ℂ)) 0 :=
  ⟨⟨by decide, fun s => by norm_num, fun s => by norm_num⟩,
    simu_motion_zero_course 2 (by decide) (fun _ => (1 : ℂ))
      (fun s => by norm_num) (fun s => by norm_num) 0⟩

/-- Claim C3 counterexample: the constant signal `-1` (length 2, all-zero course) comes
back as its magnitude `1`, not unchanged — the final `np.abs` erases the sign, so the
composition is the identity only on non-negative real signals. -/
theorem simu_motion_zero_course_counterexample :
    ((simu_motion 2 0 (fun _ => (-1 : ℂ)) 0 : ℝ) : ℂ) ≠ (fun _ : ZMod 2 => (-1 : ℂ)) 0 := by
  have hval : simu_motion 2 0 (fun _ : ZMod 2 => (-1 : ℂ)) 0 = 1 := by
    unfold simu_motion
    rw [simu_motion_c_zero, map_mul]
    rw [show Complex.abs (ZMod.stdAddChar
        (-((((2 + 1) / 2 : ℕ) : ZMod 2) * ((0 : ZMod 2) + ((2 / 2 : ℕ) : ZMod 2))))) = 1 from by
      rw [ZMod.stdAddChar_apply]
      exact Circle.abs_coe _]
    rw [one_mul]
    simp
  rw [hval]
  norm_num
